import Mathlib

/-!
Shallow embedding of `src/data_structures/binary_search_tree_oop.cpp`
(`BinarySearchTree<T>` with `std::shared_ptr<Node>` links).

A `Node` holds a value, a left child pointer and a right child pointer;
a null pointer is `Tree.leaf`, a node is `Tree.node lNode value rNode`.
The element type `T` with `<`, `>`, `==` is a `LinearOrder`.

Mutation through `shared_ptr` is rendered functionally: a C++ assignment
`node->lNode = helper(node->lNode, v)` becomes rebuilding the node with
the helper's result in the left slot.  Where the C++ discards a returned
pointer (`removeValue`, line 78, ignores the value of `removeNodeHelper`),
the embedding keeps only the field mutations that actually persist on the
tree reachable from `rootNode`.  A dereference of a possibly-null pointer
(`findValue`, line 70) is a fallible operation and is embedded as an
`Option`, `none` standing for the null dereference.
-/

namespace BSTOop

/-- Tree of nodes: `leaf` is the null `shared_ptr<Node>`, `node l v r` is a
`Node` with left child `l`, stored `value` `v` and right child `r`
(struct `Node`, lines 234-250). -/
inductive Tree (α : Type) : Type
  | leaf : Tree α
  | node : Tree α → α → Tree α → Tree α
  deriving DecidableEq

namespace Tree

variable {α : Type} [LinearOrder α]

/-- Number of nodes of a tree (not in the source; used to bound recursion
depth for the termination claim). -/
def size : Tree α → Nat
  | leaf => 0
  | node l _ r => size l + size r + 1

/-- Value stored at a node, `none` on the null pointer: embeds the C++
field access `p->value` on a `shared_ptr<Node> p`, which is undefined
behaviour when `p` is null. -/
def nodeValue : Tree α → Option α
  | leaf => none
  | node _ v _ => some v

/-- Value stored at a node with an explicit default for the null pointer;
call sites below only apply it to nodes, so the default is never consulted
there. -/
def nodeValueD (d : α) : Tree α → α
  | leaf => d
  | node _ v _ => v

/-- Embeds `insertHelper` (lines 107-120): `if (value > node->value)` descend
right, `else if (value < node->value)` descend left, otherwise leave the
node unchanged; a null slot becomes a fresh leaf node. -/
def insertHelper : Tree α → α → Tree α
  | leaf, value => node leaf value leaf
  | node l v r, value =>
    if v < value then node l v (insertHelper r value)
    else if value < v then node (insertHelper l value) v r
    else node l v r

/-- Embeds `insertValue` (lines 50-59): an empty tree gets the value as its root,
otherwise `insertHelper` runs on the root (its returned pointer is the
root itself, so discarding it loses nothing). -/
def insertValue : Tree α → α → Tree α
  | leaf, value => node leaf value leaf
  | node l v r, value => insertHelper (node l v r) value

/-- Embeds `findNodeHelper` (lines 143-155): null or matching node is returned
as is; otherwise descend right when `target > node->value`, else left. -/
def findNodeHelper : Tree α → α → Tree α
  | leaf, _ => leaf
  | node l v r, target =>
    if v = target then node l v r
    else if v < target then findNodeHelper r target
    else findNodeHelper l target

/-- Embeds `findValue` (lines 67-71): runs `findNodeHelper` from the root and then
reads `targetNode->value` unconditionally; the read is fallible (undefined
behaviour when the helper returned null), embedded as `nodeValue`. -/
def findValue (t : Tree α) (target : α) : Option α :=
  nodeValue (findNodeHelper t target)

/-- Embeds `findMinNodeInSubTree` (lines 128-134): descend left children until
none remain.  The source dereferences its argument unconditionally, so it
is never called on null; the `leaf` case only makes the embedding total. -/
def findMinNodeInSubTree : Tree α → Tree α
  | leaf => leaf
  | node leaf v r => node leaf v r
  | node (node ll lv lr) _ _ => findMinNodeInSubTree (node ll lv lr)

/-- Embeds `removeNodeHelper` (lines 164-195).  The `root` parameter is the tree
the member `rootNode` points to when the removal starts: the base case
`if (!node) return rootNode;` (line 168) returns it, and the caller grafts
it into the parent's child slot.  Descend left or right on strict
comparison; on a match a node with a null child is replaced by the other
child, and a node with two children takes the value of the minimum node of
its right subtree and that value is removed from the right subtree. -/
def removeNodeHelper (root : Tree α) : Tree α → α → Tree α
  | leaf, _ => root
  | node l v r, target =>
    if target < v then node (removeNodeHelper root l target) v r
    else if v < target then node l v (removeNodeHelper root r target)
    else
      match l, r with
      | leaf, _ => r
      | _, leaf => l
      | _, _ =>
        let m := nodeValueD v (findMinNodeInSubTree r)
        node l m (removeNodeHelper root r m)

/-- Embeds `removeValue` (line 78): it calls `removeNodeHelper(rootNode, value)` and
discards the returned pointer, so only field mutations on nodes reachable
from the root persist.  When the target sits at the root with zero or one
child the helper only resets its local copies and returns the would-be
replacement, which is discarded: the tree is unchanged.  In every other
branch the helper mutates the root's fields and returns the root pointer
itself, so the functional result below is exactly the mutated tree. -/
def removeValue (t : Tree α) (target : α) : Tree α :=
  match t with
  | leaf => leaf
  | node l v r =>
    if target < v then node (removeNodeHelper (node l v r) l target) v r
    else if v < target then node l v (removeNodeHelper (node l v r) r target)
    else
      match l, r with
      | leaf, _ => node l v r
      | _, leaf => node l v r
      | _, _ =>
        let m := nodeValueD v (findMinNodeInSubTree r)
        node l m (removeNodeHelper (node l v r) r m)

/-- Embeds `printInorderHelper` (lines 220-226): left subtree, the node's value,
right subtree; the sequence printed to `std::cout` is returned as a list. -/
def printInorderHelper : Tree α → List α
  | leaf => []
  | node l v r => printInorderHelper l ++ v :: printInorderHelper r

/-- Embeds `clear` (lines 90-93): `clearTreeHelper` walks the tree post-order
resetting its local pointer copies and frees nothing a caller can see;
`rootNode = nullptr` then empties the tree, cascading the shared-pointer
releases.  The resulting abstract state is the empty tree. -/
def clear (_t : Tree α) : Tree α := leaf

/-- Fuel-bounded operational version of `findNodeHelper`: one unit of fuel
per recursive call, `none` when the fuel runs out.  Used to state that the
source recursion terminates within `size` calls because every call is on a
strict subtree. -/
def findNodeHelperFuel : Nat → Tree α → α → Option (Tree α)
  | _, leaf, _ => some leaf
  | Nat.succ n, node l v r, target =>
    if v = target then some (node l v r)
    else if v < target then findNodeHelperFuel n r target
    else findNodeHelperFuel n l target
  | 0, node _ _ _, _ => none

/-- Fuel-bounded operational version of `insertHelper`. -/
def insertHelperFuel : Nat → Tree α → α → Option (Tree α)
  | _, leaf, value => some (node leaf value leaf)
  | Nat.succ n, node l v r, value =>
    if v < value then (insertHelperFuel n r value).map (fun r2 => node l v r2)
    else if value < v then (insertHelperFuel n l value).map (fun l2 => node l2 v r)
    else some (node l v r)
  | 0, node _ _ _, _ => none

/-- Fuel-bounded operational version of `findMinNodeInSubTree`. -/
def findMinNodeInSubTreeFuel : Nat → Tree α → Option (Tree α)
  | _, leaf => some leaf
  | _, node leaf v r => some (node leaf v r)
  | Nat.succ n, node (node ll lv lr) _ _ => findMinNodeInSubTreeFuel n (node ll lv lr)
  | 0, node (node _ _ _) _ _ => none

/-- Fuel-bounded operational version of `removeNodeHelper`. -/
def removeNodeHelperFuel (root : Tree α) : Nat → Tree α → α → Option (Tree α)
  | _, leaf, _ => some root
  | Nat.succ n, node l v r, target =>
    if target < v then (removeNodeHelperFuel root n l target).map (fun l2 => node l2 v r)
    else if v < target then (removeNodeHelperFuel root n r target).map (fun r2 => node l v r2)
    else
      match l, r with
      | leaf, _ => some r
      | _, leaf => some l
      | _, _ =>
        let m := nodeValueD v (findMinNodeInSubTree r)
        (removeNodeHelperFuel root n r m).map (fun r2 => node l m r2)
  | 0, node _ _ _, _ => none

/-- Fuel-bounded operational version of `printInorderHelper`. -/
def printInorderHelperFuel : Nat → Tree α → Option (List α)
  | _, leaf => some []
  | Nat.succ n, node l v r =>
    match printInorderHelperFuel n l, printInorderHelperFuel n r with
    | some xs, some ys => some (xs ++ v :: ys)
    | _, _ => none
  | 0, node _ _ _ => none

/-- Boolean predicate: `p` holds of every value stored in the tree. -/
def treeAll (p : α → Bool) : Tree α → Bool
  | leaf => true
  | node l v r => p v && treeAll p l && treeAll p r

/-- The binary-search-tree invariant from the file's own header comment
(lines 5-13): at every node, all left-subtree values are smaller and all
right-subtree values are larger. -/
def isBST : Tree α → Bool
  | leaf => true
  | node l v r =>
    treeAll (fun x => decide (x < v)) l && treeAll (fun x => decide (v < x)) r
      && isBST l && isBST r

end Tree

open Tree

section Lemmas

variable {α : Type} [LinearOrder α]

theorem printInorderHelper_node (l : Tree α) (v : α) (r : Tree α) :
    printInorderHelper (Tree.node l v r)
      = printInorderHelper l ++ v :: printInorderHelper r := rfl

theorem treeAll_iff {p : α → Bool} :
    ∀ {t : Tree α}, treeAll p t = true ↔ ∀ x ∈ printInorderHelper t, p x = true := by
  intro t
  induction t with
  | leaf => simp [treeAll, printInorderHelper]
  | node l v r ihl ihr =>
    simp only [treeAll, printInorderHelper, Bool.and_eq_true, ihl, ihr,
      List.mem_append, List.mem_cons]
    constructor
    · rintro ⟨⟨hv, hl⟩, hr⟩ x hx
      rcases hx with hx | hx | hx
      · exact hl x hx
      · exact hx ▸ hv
      · exact hr x hx
    · intro h
      exact ⟨⟨h v (Or.inr (Or.inl rfl)), fun x hx => h x (Or.inl hx)⟩,
        fun x hx => h x (Or.inr (Or.inr hx))⟩

theorem isBST_node_iff {l : Tree α} {v : α} {r : Tree α} :
    isBST (Tree.node l v r) = true
      ↔ (∀ x ∈ printInorderHelper l, x < v) ∧ (∀ x ∈ printInorderHelper r, v < x)
        ∧ isBST l = true ∧ isBST r = true := by
  simp only [isBST, Bool.and_eq_true, treeAll_iff, decide_eq_true_eq, and_assoc]

theorem sorted_inorder_of_isBST :
    ∀ {t : Tree α}, isBST t = true → List.Pairwise (· < ·) (printInorderHelper t) := by
  intro t
  induction t with
  | leaf => intro _; exact List.Pairwise.nil
  | node l v r ihl ihr =>
    intro h
    rcases isBST_node_iff.mp h with ⟨hlv, hvr, hl, hr⟩
    rw [printInorderHelper_node]
    refine List.pairwise_append.mpr ⟨ihl hl, ?_, ?_⟩
    · exact List.pairwise_cons.mpr ⟨hvr, ihr hr⟩
    · intro x hx y hy
      rcases List.mem_cons.mp hy with hy | hy
      · exact hy ▸ hlv x hx
      · exact lt_trans (hlv x hx) (hvr y hy)

theorem nodup_inorder_of_isBST {t : Tree α} (h : isBST t = true) :
    (printInorderHelper t).Nodup :=
  (sorted_inorder_of_isBST h).imp ne_of_lt

theorem insertValue_eq_insertHelper (t : Tree α) (v : α) :
    insertValue t v = insertHelper t v := by
  cases t <;> rfl

theorem mem_inorder_insertHelper_self (v : α) :
    ∀ t : Tree α, v ∈ printInorderHelper (insertHelper t v) := by
  intro t
  induction t with
  | leaf => simp [insertHelper, printInorderHelper]
  | node l w r ihl ihr =>
    rw [insertHelper]
    rcases lt_trichotomy w v with hw | hw | hw
    · rw [if_pos hw, printInorderHelper_node]
      exact List.mem_append_right _ (List.mem_cons_of_mem _ ihr)
    · rw [if_neg (by simp [hw]), if_neg (by simp [hw]), printInorderHelper_node]
      exact hw ▸ List.mem_append_right _ (List.mem_cons_self _ _)
    · rw [if_neg (not_lt_of_gt hw), if_pos hw, printInorderHelper_node]
      exact List.mem_append_left _ ihl

theorem mem_inorder_insertHelper_of_mem {x v : α} :
    ∀ {t : Tree α}, x ∈ printInorderHelper t → x ∈ printInorderHelper (insertHelper t v) := by
  intro t
  induction t with
  | leaf => intro h; exact absurd h (List.not_mem_nil x)
  | node l w r ihl ihr =>
    intro h
    rw [printInorderHelper_node] at h
    rw [insertHelper]
    split
    · rw [printInorderHelper_node]
      rcases List.mem_append.mp h with h | h
      · exact List.mem_append_left _ h
      · rcases List.mem_cons.mp h with h | h
        · exact h ▸ List.mem_append_right _ (List.mem_cons_self _ _)
        · exact List.mem_append_right _ (List.mem_cons_of_mem _ (ihr h))
    · split
      · rw [printInorderHelper_node]
        rcases List.mem_append.mp h with h | h
        · exact List.mem_append_left _ (ihl h)
        · exact List.mem_append_right _ h
      · exact h

theorem treeAll_insertHelper {p : α → Bool} {v : α} (hv : p v = true) :
    ∀ {t : Tree α}, treeAll p t = true → treeAll p (insertHelper t v) = true := by
  intro t
  induction t with
  | leaf => intro _; simp [insertHelper, treeAll, hv]
  | node l w r ihl ihr =>
    intro h
    rw [treeAll, Bool.and_eq_true, Bool.and_eq_true] at h
    rw [insertHelper]
    split
    · rw [treeAll, Bool.and_eq_true, Bool.and_eq_true]
      exact ⟨⟨h.1.1, h.1.2⟩, ihr h.2⟩
    · split
      · rw [treeAll, Bool.and_eq_true, Bool.and_eq_true]
        exact ⟨⟨h.1.1, ihl h.1.2⟩, h.2⟩
      · rw [treeAll, Bool.and_eq_true, Bool.and_eq_true]
        exact h

theorem isBST_insertHelper {v : α} :
    ∀ {t : Tree α}, isBST t = true → isBST (insertHelper t v) = true := by
  intro t
  induction t with
  | leaf => intro _; simp [insertHelper, isBST, treeAll]
  | node l w r ihl ihr =>
    intro h
    rw [isBST, Bool.and_eq_true, Bool.and_eq_true, Bool.and_eq_true] at h
    rcases h with ⟨⟨⟨hall, har⟩, hl⟩, hr⟩
    rw [insertHelper]
    split
    · rename_i hwv
      rw [isBST, Bool.and_eq_true, Bool.and_eq_true, Bool.and_eq_true]
      exact ⟨⟨⟨hall, treeAll_insertHelper (by simpa using hwv) har⟩, hl⟩, ihr hr⟩
    · split
      · rename_i hvw
        rw [isBST, Bool.and_eq_true, Bool.and_eq_true, Bool.and_eq_true]
        exact ⟨⟨⟨treeAll_insertHelper (by simpa using hvw) hall, har⟩, ihl hl⟩, hr⟩
      · rw [isBST, Bool.and_eq_true, Bool.and_eq_true, Bool.and_eq_true]
        exact ⟨⟨⟨hall, har⟩, hl⟩, hr⟩

theorem insertHelper_eq_of_mem {v : α} :
    ∀ {t : Tree α}, isBST t = true → v ∈ printInorderHelper t → insertHelper t v = t := by
  intro t
  induction t with
  | leaf => intro _ hv; exact absurd hv (List.not_mem_nil v)
  | node l w r ihl ihr =>
    intro h hv
    rcases isBST_node_iff.mp h with ⟨hlv, hvr, hl, hr⟩
    rw [printInorderHelper_node] at hv
    rw [insertHelper]
    rcases List.mem_append.mp hv with hm | hm
    · have hvw : v < w := hlv v hm
      rw [if_neg (not_lt_of_gt hvw), if_pos hvw, ihl hl hm]
    · rcases List.mem_cons.mp hm with hm | hm
      · rw [if_neg (by simp [hm]), if_neg (by simp [hm])]
      · have hwv : w < v := hvr v hm
        rw [if_pos hwv, ihr hr hm]

theorem nodeValue_findNodeHelper_of_mem {v : α} :
    ∀ {t : Tree α}, isBST t = true → v ∈ printInorderHelper t →
      nodeValue (findNodeHelper t v) = some v := by
  intro t
  induction t with
  | leaf => intro _ hv; exact absurd hv (List.not_mem_nil v)
  | node l w r ihl ihr =>
    intro h hv
    rcases isBST_node_iff.mp h with ⟨hlv, hvr, hl, hr⟩
    rw [printInorderHelper_node] at hv
    rw [findNodeHelper]
    rcases List.mem_append.mp hv with hm | hm
    · have hvw : v < w := hlv v hm
      rw [if_neg (by exact fun hc => absurd (hc ▸ hvw) (lt_irrefl v)),
        if_neg (not_lt_of_gt hvw)]
      exact ihl hl hm
    · rcases List.mem_cons.mp hm with hm | hm
      · rw [if_pos hm.symm, nodeValue, hm]
      · have hwv : w < v := hvr v hm
        rw [if_neg (by exact fun hc => absurd (hc ▸ hwv) (lt_irrefl v)), if_pos hwv]
        exact ihr hr hm

theorem findValue_of_mem {v : α} {t : Tree α} (h : isBST t = true)
    (hv : v ∈ printInorderHelper t) : findValue t v = some v :=
  nodeValue_findNodeHelper_of_mem h hv

theorem isBST_foldl_insertValue :
    ∀ (vs : List α) (t : Tree α), isBST t = true
      → isBST (vs.foldl insertValue t) = true := by
  intro vs
  induction vs with
  | nil => intro t h; exact h
  | cons a vs ih =>
    intro t h
    rw [List.foldl_cons]
    exact ih _ (by rw [insertValue_eq_insertHelper]; exact isBST_insertHelper h)

theorem mem_foldl_insertValue_of_mem {x : α} :
    ∀ (vs : List α) (t : Tree α), x ∈ printInorderHelper t
      → x ∈ printInorderHelper (vs.foldl insertValue t) := by
  intro vs
  induction vs with
  | nil => intro t h; exact h
  | cons a vs ih =>
    intro t h
    rw [List.foldl_cons]
    exact ih _ (by rw [insertValue_eq_insertHelper]; exact mem_inorder_insertHelper_of_mem h)

theorem mem_foldl_insertValue_self {v : α} :
    ∀ (vs : List α) (t : Tree α), v ∈ vs
      → v ∈ printInorderHelper (vs.foldl insertValue t) := by
  intro vs
  induction vs with
  | nil => intro t h; exact absurd h (List.not_mem_nil v)
  | cons a vs ih =>
    intro t h
    rw [List.foldl_cons]
    rcases List.mem_cons.mp h with h | h
    · subst h
      exact mem_foldl_insertValue_of_mem vs _
        (by rw [insertValue_eq_insertHelper]; exact mem_inorder_insertHelper_self v _)
    · exact ih _ h

theorem findNodeHelperFuel_eq {target : α} :
    ∀ (t : Tree α) (n : Nat), size t ≤ n →
      findNodeHelperFuel n t target = some (findNodeHelper t target) := by
  intro t
  induction t with
  | leaf => intro n _; cases n <;> rfl
  | node l v r ihl ihr =>
    intro n hn
    rw [size] at hn
    cases n with
    | zero => omega
    | succ n =>
      simp only [findNodeHelperFuel, findNodeHelper]
      split_ifs
      · rfl
      · exact ihr n (by omega)
      · exact ihl n (by omega)

theorem insertHelperFuel_eq {value : α} :
    ∀ (t : Tree α) (n : Nat), size t ≤ n →
      insertHelperFuel n t value = some (insertHelper t value) := by
  intro t
  induction t with
  | leaf => intro n _; cases n <;> rfl
  | node l v r ihl ihr =>
    intro n hn
    rw [size] at hn
    cases n with
    | zero => omega
    | succ n =>
      simp only [insertHelperFuel, insertHelper]
      split_ifs
      · rw [ihr n (by omega)]; rfl
      · rw [ihl n (by omega)]; rfl
      · rfl

theorem findMinNodeInSubTreeFuel_eq :
    ∀ (t : Tree α) (n : Nat), size t ≤ n →
      findMinNodeInSubTreeFuel n t = some (findMinNodeInSubTree t) := by
  intro t
  induction t with
  | leaf => intro n _; cases n <;> rfl
  | node l v r ihl ihr =>
    cases l with
    | leaf => intro n _; cases n <;> rfl
    | node ll lv lr =>
      intro n hn
      rw [size, size] at hn
      cases n with
      | zero => omega
      | succ n =>
        rw [findMinNodeInSubTreeFuel, findMinNodeInSubTree]
        exact ihl n (by rw [size]; omega)

theorem removeNodeHelperFuel_eq {root : Tree α} :
    ∀ (t : Tree α) (n : Nat) (target : α), size t ≤ n →
      removeNodeHelperFuel root n t target = some (removeNodeHelper root t target) := by
  intro t
  induction t with
  | leaf => intro n _ _; cases n <;> rfl
  | node l v r ihl ihr =>
    intro n target hn
    rw [size] at hn
    cases n with
    | zero => omega
    | succ n =>
      simp only [removeNodeHelperFuel, removeNodeHelper]
      split_ifs
      · rw [ihl n target (by omega)]; rfl
      · rw [ihr n target (by omega)]; rfl
      · cases l with
        | leaf => cases r <;> rfl
        | node ll lv lr =>
          cases r with
          | leaf => rfl
          | node rl rv rr =>
            simp only
            rw [ihr n _ (by omega)]
            rfl

theorem printInorderHelperFuel_eq :
    ∀ (t : Tree α) (n : Nat), size t ≤ n →
      printInorderHelperFuel n t = some (printInorderHelper t) := by
  intro t
  induction t with
  | leaf => intro n _; cases n <;> rfl
  | node l v r ihl ihr =>
    intro n hn
    rw [size] at hn
    cases n with
    | zero => omega
    | succ n =>
      rw [printInorderHelperFuel, ihl n (by omega), ihr n (by omega)]
      rfl

end Lemmas

/-- C1: the claim says removing an absent value is a no-op.  It is not: on
the one-node tree holding 50, `removeValue 30` descends left into a null
slot, where `removeNodeHelper` returns `rootNode` (line 168) and the
caller executes `node->lNode = rootNode`, making the root its own left
child (a cycle in the pointer graph; in this acyclic embedding, a copy of
the root grafted into the slot).  The structure and inorder sequence both
change: the inorder sequence becomes `[50, 50]`. -/
theorem removeValue_absent_grafts_root :
    removeValue (Tree.node Tree.leaf (50 : Int) Tree.leaf) 30
      = Tree.node (Tree.node Tree.leaf 50 Tree.leaf) 50 Tree.leaf
    ∧ printInorderHelper (removeValue (Tree.node Tree.leaf (50 : Int) Tree.leaf) 30)
        ≠ printInorderHelper (Tree.node Tree.leaf (50 : Int) Tree.leaf) := by
  exact ⟨by decide, by decide⟩

/-- C2: the claim says `findValue` returns an explicit not-found result
and never dereferences a missing node.  In the source, `findNodeHelper` on
the empty tree returns the null pointer and `findValue` (line 70)
unconditionally reads `targetNode->value` from it — undefined behaviour,
embedded here as the `none` branch of the fallible dereference. -/
theorem findValue_absent_derefs_null :
    findNodeHelper (Tree.leaf : Tree Int) 30 = Tree.leaf
    ∧ nodeValue (findNodeHelper (Tree.leaf : Tree Int) 30) = none
    ∧ findValue (Tree.leaf : Tree Int) 30 = none := by
  exact ⟨rfl, rfl, rfl⟩

/-- C3: the claim says removing a present value removes it, including at
the root with zero children.  It does not: on the one-node tree holding
50, `removeNodeHelper` matches the root, resets only its local pointer
copy and returns the replacement child, which `removeValue` (line 78)
discards, so the tree is unchanged and 50 is still present. -/
theorem removeValue_root_leaf_noop :
    removeValue (Tree.node Tree.leaf (50 : Int) Tree.leaf) 50
      = Tree.node Tree.leaf 50 Tree.leaf
    ∧ (50 : Int) ∈ printInorderHelper
        (removeValue (Tree.node Tree.leaf (50 : Int) Tree.leaf) 50) := by
  exact ⟨by decide, by decide⟩

/-- C4: the claim says every insert/remove sequence from the empty tree
keeps the BST invariant.  The sequence insert 50, insert 30, remove 40
does not: the remove of the absent 40 grafts the root into node 30's right
child slot (line 168 returning `rootNode`), after which 50 sits in the
left subtree of the root valued 50 and the invariant is false. -/
theorem insert_remove_sequence_breaks_invariant :
    isBST (removeValue (insertValue (insertValue Tree.leaf (50 : Int)) 30) 40) = false
    ∧ printInorderHelper
        (removeValue (insertValue (insertValue Tree.leaf (50 : Int)) 30) 40)
        = [30, 30, 50, 50] := by
  exact ⟨by decide, by decide⟩

/-- C7: inserting 50, 30, 70, 20, 40, 60, 80 and removing 30 (a node with
two children, whose value is replaced by 40, the minimum of its right
subtree) leaves the inorder sequence 20, 40, 50, 60, 70, 80, as the claim
says.  But the subsequent find for 30 does not report not-found:
`findNodeHelper` returns the null pointer and `findValue` (line 70)
dereferences it — undefined behaviour, the `none` branch of the embedded
dereference. -/
theorem deletion_sequence_inorder_and_find :
    printInorderHelper
        (removeValue ([50, 30, 70, 20, 40, 60, 80].foldl insertValue
          (Tree.leaf : Tree Int)) 30)
      = [20, 40, 50, 60, 70, 80]
    ∧ findNodeHelper
        (removeValue ([50, 30, 70, 20, 40, 60, 80].foldl insertValue
          (Tree.leaf : Tree Int)) 30) 30 = Tree.leaf
    ∧ findValue
        (removeValue ([50, 30, 70, 20, 40, 60, 80].foldl insertValue
          (Tree.leaf : Tree Int)) 30) 30 = none := by
  refine ⟨by decide, by decide, by decide⟩

/-- C5: on any tree satisfying the BST invariant, the inorder traversal
(left subtree, node value, right subtree) yields the stored values in
strictly ascending order, hence with no duplicates; the traversal is a
pure read (`printInorderHelper` only inspects the tree). -/
theorem inorder_sorted_of_isBST {α : Type} [LinearOrder α] (t : Tree α)
    (h : isBST t = true) :
    List.Pairwise (· < ·) (printInorderHelper t) ∧ (printInorderHelper t).Nodup :=
  ⟨sorted_inorder_of_isBST h, nodup_inorder_of_isBST h⟩

/-- C5 witness: the three-node tree 30, 50, 70. -/
theorem inorder_sorted_of_isBST_witness :
    isBST (Tree.node (Tree.node Tree.leaf (30 : Int) Tree.leaf) 50
        (Tree.node Tree.leaf 70 Tree.leaf)) = true
    ∧ (List.Pairwise (· < ·) (printInorderHelper
          (Tree.node (Tree.node Tree.leaf (30 : Int) Tree.leaf) 50
            (Tree.node Tree.leaf 70 Tree.leaf)))
        ∧ (printInorderHelper (Tree.node (Tree.node Tree.leaf (30 : Int) Tree.leaf) 50
            (Tree.node Tree.leaf 70 Tree.leaf))).Nodup) :=
  ⟨by decide, inorder_sorted_of_isBST _ (by decide)⟩

/-- C6: building a tree from the empty tree by any sequence of inserts
whose values include `v` (and no removes), `findValue` afterwards returns
the found value `v`. -/
theorem find_after_inserts {α : Type} [LinearOrder α] (vs : List α) (v : α)
    (h : v ∈ vs) :
    findValue (vs.foldl insertValue Tree.leaf) v = some v :=
  findValue_of_mem (isBST_foldl_insertValue vs Tree.leaf rfl)
    (mem_foldl_insertValue_self vs Tree.leaf h)

/-- C6 witness: inserting 50 then 30 and finding 30. -/
theorem find_after_inserts_witness :
    (30 : Int) ∈ [50, 30]
    ∧ findValue ([50, 30].foldl insertValue (Tree.leaf : Tree Int)) 30 = some 30 :=
  ⟨by decide, find_after_inserts [50, 30] 30 (by decide)⟩

/-- C8: on a tree satisfying the BST invariant, inserting a value that is
already stored leaves the tree unchanged, inserting the same value twice
is the same as inserting it once, and after inserting it twice the inorder
sequence holds exactly one occurrence of it. -/
theorem duplicate_insert_noop {α : Type} [LinearOrder α] (t : Tree α) (v : α)
    (h : isBST t = true) :
    (v ∈ printInorderHelper t → insertValue t v = t)
    ∧ insertValue (insertValue t v) v = insertValue t v
    ∧ List.count v (printInorderHelper (insertValue (insertValue t v) v)) = 1 := by
  have hbst1 : isBST (insertValue t v) = true := by
    rw [insertValue_eq_insertHelper]; exact isBST_insertHelper h
  have hmem1 : v ∈ printInorderHelper (insertValue t v) := by
    rw [insertValue_eq_insertHelper]; exact mem_inorder_insertHelper_self v t
  have hidem : insertValue (insertValue t v) v = insertValue t v := by
    rw [insertValue_eq_insertHelper (insertValue t v)]
    exact insertHelper_eq_of_mem hbst1 hmem1
  refine ⟨?_, hidem, ?_⟩
  · intro hv
    rw [insertValue_eq_insertHelper]
    exact insertHelper_eq_of_mem h hv
  · rw [hidem]
    exact List.count_eq_one_of_mem (nodup_inorder_of_isBST hbst1) hmem1

/-- C8 witness: the one-node tree holding 50 and the value 50. -/
theorem duplicate_insert_noop_witness :
    isBST (Tree.node Tree.leaf (50 : Int) Tree.leaf) = true
    ∧ (((50 : Int) ∈ printInorderHelper (Tree.node Tree.leaf (50 : Int) Tree.leaf)
          → insertValue (Tree.node Tree.leaf (50 : Int) Tree.leaf) 50
              = Tree.node Tree.leaf 50 Tree.leaf)
      ∧ insertValue (insertValue (Tree.node Tree.leaf (50 : Int) Tree.leaf) 50) 50
          = insertValue (Tree.node Tree.leaf (50 : Int) Tree.leaf) 50
      ∧ List.count (50 : Int) (printInorderHelper
          (insertValue (insertValue (Tree.node Tree.leaf (50 : Int) Tree.leaf) 50) 50)) = 1) :=
  ⟨by decide, duplicate_insert_noop (Tree.node Tree.leaf 50 Tree.leaf) 50 (by decide)⟩

/-- C9: `clear` always leaves the tree empty and is idempotent: clearing
any tree (also an already-empty one) yields the empty tree, clearing twice
does the same, and the inorder traversal of the cleared tree is empty. -/
theorem clear_empties_and_idempotent (t : Tree Int) :
    clear t = Tree.leaf
    ∧ clear (clear t) = Tree.leaf
    ∧ clear (Tree.leaf : Tree Int) = Tree.leaf
    ∧ printInorderHelper (clear t) = [] :=
  ⟨rfl, rfl, rfl, rfl⟩

/-- C10: every recursive helper terminates on every finite tree, because
each recursive call runs on a strict subtree (remove's successor step runs
on the right subtree with a new target).  Formally: the fuel-bounded
operational versions, which charge one unit per recursive call and return
`none` when fuel runs out, already succeed with `size t` fuel and compute
exactly the total embedded functions. -/
theorem helpers_terminate_within_size {α : Type} [LinearOrder α]
    (t root : Tree α) (target v : α) :
    findNodeHelperFuel (size t) t target = some (findNodeHelper t target)
    ∧ insertHelperFuel (size t) t v = some (insertHelper t v)
    ∧ removeNodeHelperFuel root (size t) t target = some (removeNodeHelper root t target)
    ∧ findMinNodeInSubTreeFuel (size t) t = some (findMinNodeInSubTree t)
    ∧ printInorderHelperFuel (size t) t = some (printInorderHelper t) :=
  ⟨findNodeHelperFuel_eq t (size t) le_rfl,
   insertHelperFuel_eq t (size t) le_rfl,
   removeNodeHelperFuel_eq t (size t) target le_rfl,
   findMinNodeInSubTreeFuel_eq t (size t) le_rfl,
   printInorderHelperFuel_eq t (size t) le_rfl⟩

end BSTOop
